import Mathlib

/-!
Shallow embedding of the ffl stock-signal reporter (src/main.rs) and proofs
of the specification's claims about it.

Prices are modelled as exact rationals (NaN is out of scope per the spec);
for the claims that concern IEEE infinities, the extended type F64 adjoins
plus and minus infinity to the rationals and the min/max calculators are
restated over it, unchanged otherwise.
-/

/-- The largest finite f64 value, (2^53 - 1) * 2^971, as an exact rational.
`MinPrice::calculate` starts its fold from this value (f64::MAX). -/
def f64MaxQ : ℚ := (2 ^ 53 - 1) * 2 ^ 971

/-- The smallest finite f64 value, f64::MIN = -f64::MAX.
`MaxPrice::calculate` starts its fold from this value. -/
def f64MinQ : ℚ := -((2 ^ 53 - 1) * 2 ^ 971)

namespace PriceDifference

/-- Embeds `PriceDifference::calculate` (src/main.rs:63-73): on an empty
series, none; otherwise the pair of the absolute difference last - first and
the relative difference, whose divisor is 1 when the first price is 0. -/
def calculate (series : List ℚ) : Option (ℚ × ℚ) :=
  match series with
  | [] => none
  | p :: ps =>
    let first := (p :: ps).head (List.cons_ne_nil p ps)
    let last := (p :: ps).getLast (List.cons_ne_nil p ps)
    let absDiff := last - first
    let divisor := if first = 0 then 1 else first
    some (absDiff, absDiff / divisor)

end PriceDifference

namespace MinPrice

/-- Embeds `MinPrice::calculate` (src/main.rs:82-88): none on an empty
series, otherwise the fold of `f64::min` starting from `f64::MAX`. -/
def calculate (series : List ℚ) : Option ℚ :=
  if series.isEmpty then none
  else some (series.foldl (fun acc q => min acc q) f64MaxQ)

end MinPrice

namespace MaxPrice

/-- Embeds `MaxPrice::calculate` (src/main.rs:97-103): none on an empty
series, otherwise the fold of `f64::max` starting from `f64::MIN`. -/
def calculate (series : List ℚ) : Option ℚ :=
  if series.isEmpty then none
  else some (series.foldl (fun acc q => max acc q) f64MinQ)

end MaxPrice

namespace WindowedSMA

/-- Rust `slice::windows(w)` (for w ≥ 1): every contiguous subslice of
length w, in order; produces nothing when w exceeds the slice length. -/
def windows (w : ℕ) (l : List ℚ) : List (List ℚ) :=
  (List.range (l.length + 1 - w)).map (fun i => (l.drop i).take w)

/-- Embeds `WindowedSMA::calculate` (src/main.rs:112-124) with the struct
field `window_size` passed as an argument: some list of window means when
the series is non-empty and the window size exceeds 1, otherwise none. -/
def calculate (windowSize : ℕ) (series : List ℚ) : Option (List ℚ) :=
  if series.isEmpty = false ∧ 1 < windowSize then
    some ((windows windowSize series).map (fun w => w.sum / (w.length : ℚ)))
  else
    none

end WindowedSMA

/-- f64 values without NaN: the rationals extended with plus and minus
infinity, ordered in the IEEE way. -/
abbrev F64 := WithBot (WithTop ℚ)

/-- The IEEE value +inf. -/
def F64.posInf : F64 := ((⊤ : WithTop ℚ) : F64)

/-- The IEEE value -inf. -/
def F64.negInf : F64 := (⊥ : F64)

/-- A finite f64 value. -/
def F64.ofQ (q : ℚ) : F64 := (((q : ℚ) : WithTop ℚ) : F64)

/-- f64::MAX as an extended value. -/
def F64.fMAX : F64 := F64.ofQ f64MaxQ

/-- f64::MIN as an extended value. -/
def F64.fMIN : F64 := F64.ofQ f64MinQ

namespace FMinPrice

/-- The same `MinPrice::calculate` (src/main.rs:82-88) stated over the
infinity-extended value type F64: the fold of min starting from f64::MAX. -/
def calculate (series : List F64) : Option F64 :=
  if series.isEmpty then none
  else some (series.foldl (fun acc q => min acc q) F64.fMAX)

end FMinPrice

namespace FMaxPrice

/-- The same `MaxPrice::calculate` (src/main.rs:97-103) stated over the
infinity-extended value type F64: the fold of max starting from f64::MIN. -/
def calculate (series : List F64) : Option F64 :=
  if series.isEmpty then none
  else some (series.foldl (fun acc q => max acc q) F64.fMIN)

end FMaxPrice

/-- One output row of `process_closing_data` (src/main.rs:190-199), with the
printed fields kept as data: period start, symbol, last price, relative
change, period min, period max, and the last windowed-average value. The
multiplication by 100 and the 2-decimal rounding happen only in the textual
formatting, outside this model. -/
structure SummaryRecord where
  periodStart : ℤ
  symbol : String
  lastPrice : ℚ
  pctChange : ℚ
  periodMin : ℚ
  periodMax : ℚ
  smaLast : ℚ
deriving DecidableEq

/-- Embeds `process_closing_data` (src/main.rs:178-201): nothing on an empty
series; otherwise one record whose fields come from the four calculators,
with the source's `unwrap_or` defaults (`unwrap` on min/max is modelled as a
default that is never reached, since the series is non-empty there). -/
def processClosingData (symbol : String) (closes : List ℚ) (fromT : ℤ) :
    Option SummaryRecord :=
  if closes.isEmpty then none
  else
    let periodMax := (MaxPrice.calculate closes).getD 0
    let periodMin := (MinPrice.calculate closes).getD 0
    let lastPrice := closes.getLast?.getD 0
    let pctChange := ((PriceDifference.calculate closes).getD (0, 0)).2
    let sma := (WindowedSMA.calculate 30 closes).getD []
    some ⟨fromT, symbol, lastPrice, pctChange, periodMin, periodMax,
          sma.getLast?.getD 0⟩

/-- The single error kind of the fetcher: `fetch_closing_data`
(src/main.rs:131-151) maps every provider error to
`io::ErrorKind::InvalidData`. -/
inductive IoErrorKind where
  | InvalidData
deriving DecidableEq

/-- Embeds the body of one spawned task of `run_symbols_report`
(src/main.rs:158-164): the fetch outcome is a parameter (the provider is an
opaque external collaborator); a fetch error is propagated unchanged with
`?`, otherwise the closing data is processed. The emitted record is kept as
data instead of being printed. -/
def workerTask (fetched : Except IoErrorKind (List ℚ)) (symbol : String)
    (fromT : ℤ) : Except IoErrorKind (Option SummaryRecord) :=
  match fetched with
  | Except.error e => Except.error e
  | Except.ok closes => Except.ok (processClosingData symbol closes fromT)

/-- Outcome of one spawned task as seen by `join_all`: either the task
could not run to completion (a `JoinError` of type ε), or it completed with
its own `io::Result` (error type ι). -/
inductive TaskOutcome (ε ι : Type) where
  | panicked : ε → TaskOutcome ε ι
  | completed : Except ι Unit → TaskOutcome ε ι

/-- Embeds the aggregation loop of `run_symbols_report` (src/main.rs:165-175)
over the join_all results, in task order. Returns the list of logged
join errors (in `eprintln` order) and the batch result: the first completed
task error aborts with that error; a panicked task is logged and the loop
continues; no completed errors means Ok. -/
def runSymbolsReportAggregate {ε ι : Type} :
    List (TaskOutcome ε ι) → List ε × Except ι Unit
  | [] => ([], Except.ok ())
  | TaskOutcome.panicked e :: rest =>
    let r := runSymbolsReportAggregate rest
    (e :: r.1, r.2)
  | TaskOutcome.completed (Except.error err) :: _ => ([], Except.error err)
  | TaskOutcome.completed (Except.ok _) :: rest => runSymbolsReportAggregate rest

/-- Mirror of `tokio::time::MissedTickBehavior`. -/
inductive MissedTickBehavior where
  | Burst
  | Delay
  | Skip
deriving DecidableEq

/-- The interval configuration of `main` (src/main.rs:211-212): a period of
30 time units and MissedTickBehavior::Delay. -/
structure IntervalConfig where
  period : ℕ
  behavior : MissedTickBehavior
deriving DecidableEq

/-- The interval `main` actually builds: `Duration::from_secs(30)` with
`set_missed_tick_behavior(MissedTickBehavior::Delay)`. -/
def mainInterval : IntervalConfig :=
  { period := 30, behavior := MissedTickBehavior.Delay }

/-- State of the interval timer: the current time and the deadline of the
next tick. -/
structure TickState where
  now : ℕ
  deadline : ℕ
deriving DecidableEq

/-- The moment `interval.tick()` returns: at the deadline, or immediately
when the deadline has already passed. -/
def tickFire (s : TickState) : ℕ := max s.now s.deadline

/-- One loop iteration under MissedTickBehavior::Delay (tokio's documented
semantics, as the spec describes them): the tick fires at `tickFire`, the
batch then runs for duration d, and the next deadline is one period after
the fire time — never a queued catch-up deadline. -/
def delayStep (period : ℕ) (s : TickState) (d : ℕ) : TickState :=
  { now := tickFire s + d, deadline := tickFire s + period }

/-- The fire times of successive ticks, one per batch duration, under
MissedTickBehavior::Delay. -/
def fireTimes (period : ℕ) (s : TickState) : List ℕ → List ℕ
  | [] => []
  | d :: rest => tickFire s :: fireTimes period (delayStep period s d) rest

/-- Embeds the `loop` of `main` (src/main.rs:214-217) over the sequence of
batch results: each tick runs one batch; `?` ends the loop at the first
batch error, which becomes main's return value; otherwise the loop
continues (none = still looping after this prefix). -/
def mainLoopResult {ι : Type} : List (Except ι Unit) → Option ι
  | [] => none
  | Except.error e :: _ => some e
  | Except.ok _ :: rest => mainLoopResult rest

/-- The arguments of one `run_symbols_report` call. -/
structure BatchCall where
  symbols : List String
  fromT : ℤ
  toT : ℤ
deriving DecidableEq

/-- Embeds the argument computation of `main` (src/main.rs:206-216):
`from` is parsed once, `to = Utc::now()` is evaluated once at startup
(line 207, before the loop), and tick number n calls
`run_symbols_report(symbols.clone(), from, to)` with those same values. -/
def mainBatchCall (symbols : List String) (fromT : ℤ) (startupNow : ℤ)
    (n : ℕ) : BatchCall :=
  { symbols := symbols, fromT := fromT, toT := startupNow }

/-- A fold of `min` over a non-empty list computes the minimum of the seed
and the least element of the list. -/
theorem foldl_min_spec {α : Type} [LinearOrder α] (l : List α) (h : l ≠ []) :
    ∃ m, m ∈ l ∧ (∀ x ∈ l, m ≤ x) ∧
      ∀ z, l.foldl (fun a b => min a b) z = min z m := by
  induction l with
  | nil => exact absurd rfl h
  | cons a t ih =>
    cases t with
    | nil => exact ⟨a, by simp, by simp, fun z => by simp⟩
    | cons b t' =>
      obtain ⟨m, hmem, hle, hfold⟩ := ih (by simp)
      refine ⟨min a m, ?_, ?_, fun z => ?_⟩
      · rcases le_total a m with hc | hc
        · simp [min_eq_left hc]
        · rw [min_eq_right hc]
          exact List.mem_cons_of_mem a hmem
      · intro x hx
        rcases List.mem_cons.mp hx with hx1 | hx
        · subst hx1
          exact min_le_left x m
        · exact le_trans (min_le_right a m) (hle x hx)
      · have hstep : (a :: b :: t').foldl (fun a b => min a b) z
            = (b :: t').foldl (fun a b => min a b) (min z a) := rfl
        rw [hstep, hfold (min z a), min_assoc]

/-- A fold of `max` over a non-empty list computes the maximum of the seed
and the greatest element of the list. -/
theorem foldl_max_spec {α : Type} [LinearOrder α] (l : List α) (h : l ≠ []) :
    ∃ m, m ∈ l ∧ (∀ x ∈ l, x ≤ m) ∧
      ∀ z, l.foldl (fun a b => max a b) z = max z m := by
  induction l with
  | nil => exact absurd rfl h
  | cons a t ih =>
    cases t with
    | nil => exact ⟨a, by simp, by simp, fun z => by simp⟩
    | cons b t' =>
      obtain ⟨m, hmem, hle, hfold⟩ := ih (by simp)
      refine ⟨max a m, ?_, ?_, fun z => ?_⟩
      · rcases le_total a m with hc | hc
        · rw [max_eq_right hc]
          exact List.mem_cons_of_mem a hmem
        · simp [max_eq_left hc]
      · intro x hx
        rcases List.mem_cons.mp hx with hx1 | hx
        · subst hx1
          exact le_max_left x m
        · exact le_trans (hle x hx) (le_max_right a m)
      · have hstep : (a :: b :: t').foldl (fun a b => max a b) z
            = (b :: t').foldl (fun a b => max a b) (max z a) := rfl
        rw [hstep, hfold (max z a), max_assoc]

/-- C4: Difference on an empty series returns absence; on a non-empty series
it returns last - first together with that difference divided by 1 when the
first price is 0 and by the first price otherwise; in particular a
singleton gives (0, 0) for any value, and [2,3,5,6,1,2,10] gives (8, 4). -/
theorem C4_price_difference (series : List ℚ) (x : ℚ) :
    PriceDifference.calculate [] = none ∧
    (∀ (h : series ≠ []),
      PriceDifference.calculate series =
        some (series.getLast h - series.head h,
          (series.getLast h - series.head h) /
            (if series.head h = 0 then 1 else series.head h))) ∧
    PriceDifference.calculate [x] = some (0, 0) ∧
    PriceDifference.calculate [2, 3, 5, 6, 1, 2, 10] = some (8, 4) := by
  refine ⟨rfl, ?_, ?_, ?_⟩
  · intro h
    cases series with
    | nil => exact absurd rfl h
    | cons p ps => rfl
  · simp [PriceDifference.calculate]
  · norm_num [PriceDifference.calculate, List.getLast]

/-- Witness for C4 at the concrete series [1, 3]. -/
theorem C4_price_difference_witness :
    PriceDifference.calculate [(1 : ℚ), 3] = some (2, 2) := by
  have h := (C4_price_difference [(1 : ℚ), 3] 0).2.1 (by simp)
  norm_num [List.getLast] at h
  exact h

/-- C7: a Worker whose fetch yields an empty price series produces no
Summary Record and completes without error. -/
theorem C7_empty_series_no_record (symbol : String) (t : ℤ) :
    processClosingData symbol [] t = none ∧
    workerTask (Except.ok []) symbol t = Except.ok none :=
  ⟨rfl, rfl⟩

/-- C2 counterexample: the series [5] has length ≥ 1 and the window size 1
satisfies W ≥ 1, yet WindowedSMA returns absence, not a present result of
max(0, 1-1+1) = 1 elements as the claim requires. -/
theorem C2_counterexample :
    (1 ≤ [(5 : ℚ)].length ∧ 1 ≤ 1) ∧ WindowedSMA.calculate 1 [(5 : ℚ)] = none := by
  refine ⟨⟨by simp, le_refl 1⟩, ?_⟩
  norm_num [WindowedSMA.calculate]

/-- C2 (amended): for every series of length ≥ 1 and window size W ≥ 2,
WindowedSMA returns a present result of exactly max(0, len-W+1) elements;
it returns absence exactly when the series is empty or W ≤ 1. -/
theorem C2_window_count (series : List ℚ) (w : ℕ) :
    (series ≠ [] → 2 ≤ w →
      ∃ r, WindowedSMA.calculate w series = some r ∧
        (r.length : ℤ) = max 0 ((series.length : ℤ) - (w : ℤ) + 1)) ∧
    (WindowedSMA.calculate w series = none ↔ series = [] ∨ w ≤ 1) := by
  constructor
  · intro hne hw
    have hE : series.isEmpty = false := by simpa using hne
    have hw' : 1 < w := hw
    refine ⟨(WindowedSMA.windows w series).map (fun win => win.sum / (win.length : ℚ)),
      by simp [WindowedSMA.calculate, hE, hw'], ?_⟩
    simp only [List.length_map, WindowedSMA.windows, List.length_range]
    omega
  · constructor
    · intro hnone
      by_contra hcon
      push_neg at hcon
      obtain ⟨h1, h2⟩ := hcon
      have hE : series.isEmpty = false := by simpa using h1
      have hw' : 1 < w := by omega
      simp [WindowedSMA.calculate, hE, hw'] at hnone
    · intro hor
      rcases hor with h1 | h2
      · subst h1
        rfl
      · have hneg : ¬(series.isEmpty = false ∧ 1 < w) := fun hc => absurd hc.2 (by omega)
        simp only [WindowedSMA.calculate, if_neg hneg]

/-- Witness for C2 at series [2, 4, 6] with window size 2. -/
theorem C2_window_count_witness :
    ∃ r, WindowedSMA.calculate 2 [(2 : ℚ), 4, 6] = some r ∧
      (r.length : ℤ) = max 0 ((([(2 : ℚ), 4, 6].length : ℕ) : ℤ) - ((2 : ℕ) : ℤ) + 1) :=
  (C2_window_count [(2 : ℚ), 4, 6] 2).1 (by simp) (le_refl 2)

/-- C5: on a non-empty series with window size above 1, WindowedSMA returns
a present sequence whose i-th element is the mean of the W consecutive
prices starting at position i, empty exactly when the window exceeds the
series length; absence occurs only for an empty series or W ≤ 1. -/
theorem C5_windowed_means (series : List ℚ) (w : ℕ) :
    (∀ (h1 : series ≠ []) (h2 : 1 < w),
      ∃ r, WindowedSMA.calculate w series = some r ∧
        r.length = series.length + 1 - w ∧
        (∀ i (hi : i < r.length), r[i] = ((series.drop i).take w).sum / (w : ℚ)) ∧
        (series.length < w → r = [])) ∧
    (WindowedSMA.calculate w series = none → series = [] ∨ w ≤ 1) := by
  constructor
  · intro h1 h2
    have hE : series.isEmpty = false := by simpa using h1
    refine ⟨(WindowedSMA.windows w series).map (fun win => win.sum / (win.length : ℚ)),
      by simp [WindowedSMA.calculate, hE, h2], ?_, ?_, ?_⟩
    · simp [WindowedSMA.windows]
    · intro i hi
      simp only [List.length_map, WindowedSMA.windows, List.length_range] at hi
      have hlen : ((series.drop i).take w).length = w := by
        simp only [List.length_take, List.length_drop]
        omega
      simp only [WindowedSMA.windows, List.getElem_map, List.getElem_range]
      rw [hlen]
    · intro hlt
      have hz : series.length + 1 - w = 0 := by omega
      simp [WindowedSMA.windows, hz]
  · intro hnone
    by_contra hcon
    push_neg at hcon
    obtain ⟨hne, hw⟩ := hcon
    have hE : series.isEmpty = false := by simpa using hne
    have hw' : 1 < w := by omega
    simp [WindowedSMA.calculate, hE, hw'] at hnone

/-- Witness for C5 at series [2, 4, 6] with window size 2. -/
theorem C5_windowed_means_witness :
    ∃ r, WindowedSMA.calculate 2 [(2 : ℚ), 4, 6] = some r ∧
      r.length = [(2 : ℚ), 4, 6].length + 1 - 2 ∧
      (∀ i (hi : i < r.length),
        r[i] = (([(2 : ℚ), 4, 6].drop i).take 2).sum / ((2 : ℕ) : ℚ)) ∧
      ([(2 : ℚ), 4, 6].length < 2 → r = []) :=
  (C5_windowed_means [(2 : ℚ), 4, 6] 2).1 (by simp) (by omega)

/-- The fold-min and fold-max of a non-empty list bound every element of the
list, and the fold-min is at most the fold-max, for any seeds. -/
theorem minmax_fold_bounds {α : Type} [LinearOrder α] (l : List α) (h : l ≠ [])
    (zmin zmax : α) :
    (∀ x ∈ l, l.foldl (fun a b => min a b) zmin ≤ x ∧
      x ≤ l.foldl (fun a b => max a b) zmax) ∧
    l.foldl (fun a b => min a b) zmin ≤ l.foldl (fun a b => max a b) zmax := by
  obtain ⟨m, hm, hmle, hmf⟩ := foldl_min_spec l h
  obtain ⟨M, hM, hMle, hMf⟩ := foldl_max_spec l h
  constructor
  · intro x hx
    rw [hmf zmin, hMf zmax]
    exact ⟨le_trans (min_le_right _ _) (hmle x hx),
           le_trans (hMle x hx) (le_max_right _ _)⟩
  · rw [hmf zmin, hMf zmax]
    obtain ⟨x0, hx0⟩ := List.exists_mem_of_ne_nil l h
    calc min zmin m ≤ x0 := le_trans (min_le_right _ _) (hmle x0 hx0)
    _ ≤ max zmax M := le_trans (hMle x0 hx0) (le_max_right _ _)

/-- C8: on every non-empty NaN-free series, Minimum and Maximum are present,
Minimum is at most every element, Maximum is at least every element, and
Minimum ≤ Maximum; stated both over the infinity-extended values and over
the finite rationals. -/
theorem C8_min_max_bounds (series : List F64) (seriesQ : List ℚ) :
    (∀ (h : series ≠ []),
      ∃ mn mx, FMinPrice.calculate series = some mn ∧
        FMaxPrice.calculate series = some mx ∧
        (∀ x ∈ series, mn ≤ x ∧ x ≤ mx) ∧ mn ≤ mx) ∧
    (∀ (h : seriesQ ≠ []),
      ∃ mn mx, MinPrice.calculate seriesQ = some mn ∧
        MaxPrice.calculate seriesQ = some mx ∧
        (∀ x ∈ seriesQ, mn ≤ x ∧ x ≤ mx) ∧ mn ≤ mx) := by
  constructor
  · intro h
    have hE : series.isEmpty = false := by simpa using h
    obtain ⟨hbound, hmm⟩ := minmax_fold_bounds series h F64.fMAX F64.fMIN
    refine ⟨series.foldl (fun a b => min a b) F64.fMAX,
            series.foldl (fun a b => max a b) F64.fMIN, ?_, ?_, hbound, hmm⟩
    · simp [FMinPrice.calculate, hE]
    · simp [FMaxPrice.calculate, hE]
  · intro h
    have hE : seriesQ.isEmpty = false := by simpa using h
    obtain ⟨hbound, hmm⟩ := minmax_fold_bounds seriesQ h f64MaxQ f64MinQ
    refine ⟨seriesQ.foldl (fun a b => min a b) f64MaxQ,
            seriesQ.foldl (fun a b => max a b) f64MinQ, ?_, ?_, hbound, hmm⟩
    · simp [MinPrice.calculate, hE]
    · simp [MaxPrice.calculate, hE]

/-- Witness for C8 at the extended series [1, 2] and rational series [1, 2]. -/
theorem C8_min_max_bounds_witness :
    (∃ mn mx, FMinPrice.calculate [F64.ofQ 1, F64.ofQ 2] = some mn ∧
      FMaxPrice.calculate [F64.ofQ 1, F64.ofQ 2] = some mx ∧
      (∀ x ∈ [F64.ofQ 1, F64.ofQ 2], mn ≤ x ∧ x ≤ mx) ∧ mn ≤ mx) ∧
    (∃ mn mx, MinPrice.calculate [(1 : ℚ), 2] = some mn ∧
      MaxPrice.calculate [(1 : ℚ), 2] = some mx ∧
      (∀ x ∈ [(1 : ℚ), 2], mn ≤ x ∧ x ≤ mx) ∧ mn ≤ mx) := by
  obtain ⟨hF, hQ⟩ := C8_min_max_bounds [F64.ofQ 1, F64.ofQ 2] [(1 : ℚ), 2]
  exact ⟨hF (by simp), hQ (by simp)⟩

/-- C10: because the folds start from f64::MAX and f64::MIN, Minimum of a
non-empty series is min(f64::MAX, least element) and Maximum is
max(f64::MIN, greatest element); on an all-plus-infinity series Minimum
returns f64::MAX, a value not in the series, and dually for Maximum on an
all-minus-infinity series. -/
theorem C10_fold_seed_artifacts (series : List F64) :
    (∀ (h : series ≠ []),
      (∃ m, m ∈ series ∧ (∀ x ∈ series, m ≤ x) ∧
        FMinPrice.calculate series = some (min F64.fMAX m)) ∧
      (∃ M, M ∈ series ∧ (∀ x ∈ series, x ≤ M) ∧
        FMaxPrice.calculate series = some (max F64.fMIN M))) ∧
    (FMinPrice.calculate [F64.posInf, F64.posInf] = some F64.fMAX ∧
      F64.fMAX ∉ [F64.posInf, F64.posInf]) ∧
    (FMaxPrice.calculate [F64.negInf, F64.negInf] = some F64.fMIN ∧
      F64.fMIN ∉ [F64.negInf, F64.negInf]) := by
  refine ⟨?_, ⟨?_, ?_⟩, ⟨?_, ?_⟩⟩
  · intro h
    have hE : series.isEmpty = false := by simpa using h
    obtain ⟨m, hm, hle, hf⟩ := foldl_min_spec series h
    obtain ⟨M, hM, hle', hf'⟩ := foldl_max_spec series h
    exact ⟨⟨m, hm, hle, by simp [FMinPrice.calculate, hE, hf F64.fMAX]⟩,
           ⟨M, hM, hle', by simp [FMaxPrice.calculate, hE, hf' F64.fMIN]⟩⟩
  · simp [FMinPrice.calculate, F64.posInf, F64.fMAX, F64.ofQ]
  · simp [F64.posInf, F64.fMAX, F64.ofQ]
  · simp [FMaxPrice.calculate, F64.negInf, F64.fMIN, F64.ofQ]
  · simp [F64.negInf, F64.fMIN, F64.ofQ]

/-- Witness for C10 at the singleton extended series [5]. -/
theorem C10_fold_seed_artifacts_witness :
    (∃ m, m ∈ [F64.ofQ 5] ∧ (∀ x ∈ [F64.ofQ 5], m ≤ x) ∧
      FMinPrice.calculate [F64.ofQ 5] = some (min F64.fMAX m)) ∧
    (∃ M, M ∈ [F64.ofQ 5] ∧ (∀ x ∈ [F64.ofQ 5], x ≤ M) ∧
      FMaxPrice.calculate [F64.ofQ 5] = some (max F64.fMIN M)) :=
  (C10_fold_seed_artifacts [F64.ofQ 5]).1 (by simp)

/-- The aggregation loop returns the first completed task error when the
tasks before it completed cleanly or merely panicked. -/
theorem aggregate_first_error {ε ι : Type} (e : ι) (rest : List (TaskOutcome ε ι)) :
    ∀ pre : List (TaskOutcome ε ι),
      (∀ e', TaskOutcome.completed (Except.error e') ∉ pre) →
      (runSymbolsReportAggregate
        (pre ++ TaskOutcome.completed (Except.error e) :: rest)).2 = Except.error e := by
  intro pre
  induction pre with
  | nil => intro _; rfl
  | cons p pre' ih =>
    intro hpre
    have hpre' : ∀ e', TaskOutcome.completed (Except.error e') ∉ pre' :=
      fun e' hmem => hpre e' (List.mem_cons_of_mem p hmem)
    cases p with
    | panicked pe =>
      simp only [List.cons_append, runSymbolsReportAggregate]
      exact ih hpre'
    | completed res =>
      cases res with
      | error err => exact absurd (List.mem_cons_self _ _) (hpre err)
      | ok u =>
        simp only [List.cons_append, runSymbolsReportAggregate]
        exact ih hpre'

/-- The aggregation loop returns Ok when no task completed with an error. -/
theorem aggregate_no_error_ok {ε ι : Type} :
    ∀ l : List (TaskOutcome ε ι),
      (∀ e, TaskOutcome.completed (Except.error e) ∉ l) →
      (runSymbolsReportAggregate l).2 = Except.ok () := by
  intro l
  induction l with
  | nil => intro _; rfl
  | cons p rest ih =>
    intro hl
    have hrest : ∀ e, TaskOutcome.completed (Except.error e) ∉ rest :=
      fun e hm => hl e (List.mem_cons_of_mem p hm)
    cases p with
    | panicked pe =>
      simp only [runSymbolsReportAggregate]
      exact ih hrest
    | completed res =>
      cases res with
      | error err => exact absurd (List.mem_cons_self _ _) (hl err)
      | ok u =>
        simp only [runSymbolsReportAggregate]
        exact ih hrest

/-- C3: the batch waits for all tasks and aggregates: the first clean task
failure becomes the batch result and no later failure is surfaced; an
encountered task-level fault is only logged and the remaining results keep
being processed, leaving the batch result unchanged; with no clean failures
the batch succeeds. -/
theorem C3_batch_aggregation {ε ι : Type} (l : List (TaskOutcome ε ι)) :
    (∀ pre e rest, l = pre ++ TaskOutcome.completed (Except.error e) :: rest →
      (∀ e', TaskOutcome.completed (Except.error e') ∉ pre) →
      (runSymbolsReportAggregate l).2 = Except.error e) ∧
    (∀ e rest, l = TaskOutcome.panicked e :: rest →
      runSymbolsReportAggregate l =
        (e :: (runSymbolsReportAggregate rest).1, (runSymbolsReportAggregate rest).2)) ∧
    ((∀ e, TaskOutcome.completed (Except.error e) ∉ l) →
      (runSymbolsReportAggregate l).2 = Except.ok ()) := by
  refine ⟨?_, ?_, aggregate_no_error_ok l⟩
  · intro pre e rest hl hpre
    subst hl
    exact aggregate_first_error e rest pre hpre
  · intro e rest hl
    subst hl
    rfl

/-- Witness for C3: a batch whose tasks completed cleanly, panicked, failed
cleanly with error 3 and failed cleanly with error 4 reports error 3. -/
theorem C3_batch_aggregation_witness :
    (runSymbolsReportAggregate
      [TaskOutcome.completed (Except.ok ()), TaskOutcome.panicked (7 : ℕ),
       TaskOutcome.completed (Except.error (3 : ℕ)),
       TaskOutcome.completed (Except.error 4)]).2 = Except.error 3 :=
  (C3_batch_aggregation _).1
    [TaskOutcome.completed (Except.ok ()), TaskOutcome.panicked 7] 3
    [TaskOutcome.completed (Except.error 4)] rfl (by intro e'; simp)

/-- C6: for every non-empty fetched series the Worker emits exactly one
record: last price is the final element, percent change is the relative
component of Difference, min and max come from the present Minimum and
Maximum results, and the moving-average field is the last element of the
window-30 average or 0 when that sequence is empty or absent. -/
theorem C6_record_fields (symbol : String) (closes : List ℚ) (t : ℤ) :
    ∀ (h : closes ≠ []),
      ∃ r, processClosingData symbol closes t = some r ∧
        r.symbol = symbol ∧ r.periodStart = t ∧
        r.lastPrice = closes.getLast h ∧
        (∃ p, PriceDifference.calculate closes = some p ∧ r.pctChange = p.2) ∧
        (∃ mn, MinPrice.calculate closes = some mn ∧ r.periodMin = mn) ∧
        (∃ mx, MaxPrice.calculate closes = some mx ∧ r.periodMax = mx) ∧
        (∀ l, WindowedSMA.calculate 30 closes = some l →
          (∀ (hl : l ≠ []), r.smaLast = l.getLast hl) ∧ (l = [] → r.smaLast = 0)) ∧
        (WindowedSMA.calculate 30 closes = none → r.smaLast = 0) := by
  intro h
  have hE : closes.isEmpty = false := by simpa using h
  have hsome : processClosingData symbol closes t =
      some ⟨t, symbol, closes.getLast?.getD 0,
            ((PriceDifference.calculate closes).getD (0, 0)).2,
            (MinPrice.calculate closes).getD 0,
            (MaxPrice.calculate closes).getD 0,
            ((WindowedSMA.calculate 30 closes).getD []).getLast?.getD 0⟩ := by
    simp [processClosingData, hE]
  refine ⟨_, hsome, rfl, rfl, ?_, ?_, ?_, ?_, ?_, ?_⟩
  · show closes.getLast?.getD 0 = closes.getLast h
    rw [List.getLast?_eq_getLast closes h]
    rfl
  · obtain ⟨pr, hpr⟩ : ∃ pr, PriceDifference.calculate closes = some pr := by
      cases closes with
      | nil => exact absurd rfl h
      | cons a t' => exact ⟨_, rfl⟩
    refine ⟨pr, hpr, ?_⟩
    show ((PriceDifference.calculate closes).getD (0, 0)).2 = pr.2
    rw [hpr]
    rfl
  · have hmin : MinPrice.calculate closes =
        some (closes.foldl (fun a b => min a b) f64MaxQ) := by
      simp [MinPrice.calculate, hE]
    refine ⟨_, hmin, ?_⟩
    show (MinPrice.calculate closes).getD 0 = _
    rw [hmin]
    rfl
  · have hmax : MaxPrice.calculate closes =
        some (closes.foldl (fun a b => max a b) f64MinQ) := by
      simp [MaxPrice.calculate, hE]
    refine ⟨_, hmax, ?_⟩
    show (MaxPrice.calculate closes).getD 0 = _
    rw [hmax]
    rfl
  · intro l hl
    constructor
    · intro hlne
      show ((WindowedSMA.calculate 30 closes).getD []).getLast?.getD 0 = l.getLast hlne
      rw [hl]
      show l.getLast?.getD 0 = l.getLast hlne
      rw [List.getLast?_eq_getLast l hlne]
      rfl
    · intro hleq
      show ((WindowedSMA.calculate 30 closes).getD []).getLast?.getD 0 = 0
      rw [hl, hleq]
      rfl
  · intro hnone
    show ((WindowedSMA.calculate 30 closes).getD []).getLast?.getD 0 = 0
    rw [hnone]
    rfl

/-- Witness for C6 at the series [1, 2, 4]. -/
theorem C6_record_fields_witness :
    ∃ r, processClosingData "X" [(1 : ℚ), 2, 4] 5 = some r ∧
      r.symbol = "X" ∧ r.periodStart = 5 ∧ r.lastPrice = 4 := by
  obtain ⟨r, hsome, hsym, hstart, hlast, -⟩ :=
    C6_record_fields "X" [(1 : ℚ), 2, 4] 5 (by simp)
  refine ⟨r, hsome, hsym, hstart, ?_⟩
  rw [hlast]
  rfl

/-- The loop of main keeps running while batches succeed. -/
theorem mainLoop_no_error {ι : Type} :
    ∀ l : List (Except ι Unit), (∀ e, Except.error e ∉ l) → mainLoopResult l = none := by
  intro l
  induction l with
  | nil => intro _; rfl
  | cons p rest ih =>
    intro hl
    cases p with
    | error e => exact absurd (List.mem_cons_self _ _) (hl e)
    | ok u =>
      simp only [mainLoopResult]
      exact ih (fun e hm => hl e (List.mem_cons_of_mem _ hm))

/-- The loop of main ends at the first batch error and returns it. -/
theorem mainLoop_first_error {ι : Type} (e : ι) (rest : List (Except ι Unit)) :
    ∀ pre, (∀ e', Except.error e' ∉ pre) →
      mainLoopResult (pre ++ Except.error e :: rest) = some e := by
  intro pre
  induction pre with
  | nil => intro _; rfl
  | cons p pre' ih =>
    intro hpre
    cases p with
    | error e' => exact absurd (List.mem_cons_self _ _) (hpre e')
    | ok u =>
      simp only [List.cons_append, mainLoopResult]
      exact ih (fun e' hm => hpre e' (List.mem_cons_of_mem _ hm))

/-- One tick fire time per batch. -/
theorem fireTimes_length (period : ℕ) (s : TickState) (ds : List ℕ) :
    (fireTimes period s ds).length = ds.length := by
  induction ds generalizing s with
  | nil => rfl
  | cons d rest ih => simp [fireTimes, ih]

/-- Under the Delay policy, consecutive tick fire times are at least one
period apart: ticks never queue up. -/
theorem fireTimes_gap (period : ℕ) (ds : List ℕ) :
    ∀ (s : TickState) (i : ℕ) (hi : i + 1 < (fireTimes period s ds).length),
      (fireTimes period s ds)[i] + period ≤ (fireTimes period s ds)[i + 1] := by
  induction ds with
  | nil => intro s i hi; simp [fireTimes] at hi
  | cons d rest ih =>
    intro s i hi
    cases rest with
    | nil => simp [fireTimes] at hi
    | cons d' rest' =>
      cases i with
      | zero =>
        show tickFire s + period ≤ (fireTimes period s (d :: d' :: rest'))[1]
        simp only [fireTimes]
        show tickFire s + period ≤ tickFire (delayStep period s d)
        simp only [tickFire, delayStep]
        exact le_max_right _ _
      | succ i' =>
        have hi' : i' + 1 < (fireTimes period (delayStep period s d) (d' :: rest')).length := by
          simp only [fireTimes, List.length_cons] at hi ⊢
          omega
        have hrec := ih (delayStep period s d) i' hi'
        simpa only [fireTimes, List.getElem_cons_succ] using hrec

/-- C9: the scheduler uses a fixed period of 30 with the Delay missed-tick
policy; each batch corresponds to one tick fire, consecutive fires are at
least a period apart (no catch-up bursts), after an overrun the next tick
fires exactly at batch completion and the following deadline is one period
after that completion, and the loop ends exactly at the first batch
failure, which it propagates. -/
theorem C9_scheduler {ι : Type} (l : List (Except ι Unit)) (ds : List ℕ)
    (s : TickState) (d : ℕ) :
    (mainInterval.period = 30 ∧ mainInterval.behavior = MissedTickBehavior.Delay) ∧
    (fireTimes mainInterval.period s ds).length = ds.length ∧
    (∀ i (hi : i + 1 < (fireTimes mainInterval.period s ds).length),
      (fireTimes mainInterval.period s ds)[i] + mainInterval.period ≤
        (fireTimes mainInterval.period s ds)[i + 1]) ∧
    (mainInterval.period < d →
      tickFire (delayStep mainInterval.period s d) = tickFire s + d ∧
      ∀ d', (delayStep mainInterval.period (delayStep mainInterval.period s d) d').deadline =
        (tickFire s + d) + mainInterval.period) ∧
    ((∀ e, Except.error e ∉ l) → mainLoopResult l = none) ∧
    (∀ pre e rest, l = pre ++ Except.error e :: rest →
      (∀ e', Except.error e' ∉ pre) → mainLoopResult l = some e) := by
  refine ⟨⟨rfl, rfl⟩, fireTimes_length _ _ _,
    fireTimes_gap mainInterval.period ds s, ?_, mainLoop_no_error l, ?_⟩
  · intro hd
    constructor
    · simp only [tickFire, delayStep]
      omega
    · intro d'
      simp only [tickFire, delayStep]
      omega
  · intro pre e rest hl hpre
    subst hl
    exact mainLoop_first_error e rest pre hpre

/-- Witness for C9: a run with two batches, the second failing with error 3,
ends with error 3; the gap facts hold for the durations [40, 10] from the
start state, and an overrun of 40 > 30 fires the next tick at completion. -/
theorem C9_scheduler_witness :
    ((∀ i (hi : i + 1 < (fireTimes mainInterval.period ⟨0, 0⟩ [40, 10]).length),
      (fireTimes mainInterval.period ⟨0, 0⟩ [40, 10])[i] + mainInterval.period ≤
        (fireTimes mainInterval.period ⟨0, 0⟩ [40, 10])[i + 1]) ∧
     (tickFire (delayStep mainInterval.period ⟨0, 0⟩ 40) = tickFire ⟨0, 0⟩ + 40)) ∧
    mainLoopResult [Except.ok (), Except.error (3 : ℕ)] = some 3 := by
  obtain ⟨-, -, hgap, hover, -, hfirst⟩ :=
    C9_scheduler [Except.ok (), Except.error (3 : ℕ)] [40, 10] ⟨0, 0⟩ 40
  exact ⟨⟨hgap, (hover (by decide)).1⟩,
    hfirst [Except.ok ()] 3 [] rfl (by intro e'; simp)⟩

/-- C1 (code observation): main evaluates both range endpoints once before
the loop; every tick's batch receives the same end time, the startup value
of now, and the same start; in particular ticks 0 and 1 of a run with
startup now = 100 both pass end = 100. -/
theorem C1_end_time_fixed_at_startup :
    (∀ syms fromT now0 n m,
      (mainBatchCall syms fromT now0 n).toT = (mainBatchCall syms fromT now0 m).toT ∧
      (mainBatchCall syms fromT now0 n).toT = now0 ∧
      (mainBatchCall syms fromT now0 n).fromT = fromT ∧
      (mainBatchCall syms fromT now0 n).symbols = syms) ∧
    (mainBatchCall ["AAPL"] 0 100 0).toT = 100 ∧
    (mainBatchCall ["AAPL"] 0 100 1).toT = 100 :=
  ⟨fun _ _ _ _ _ => ⟨rfl, rfl, rfl, rfl⟩, rfl, rfl⟩
